import Mathlib

/-!
Shallow embedding of `lib/blobchunk.c` from erofs-utils (chunk-level
deduplication and block remapping for chunk-based files), together with
theorems settling the spec claims about it.

Modelling conventions:
* machine integers are `Nat`/`Int`; the one place where C integer
  conversion rules matter (the `ret < chunksize` comparison of an `int`
  against an `unsigned int` in `erofs_blob_getchunk`) is modelled
  explicitly by reducing the signed value modulo `2 ^ 32`;
* the staging file `blobfile` is a byte list (`ftell` = its length); the
  sink capacity of the temporary file is modelled by an optional bound
  `cap` (`none` = unbounded), and `fwrite(ptr, size, 1, f)` succeeds
  (returns 1) exactly when the bytes fit under the bound and `size` is
  nonzero (C `fwrite` returns 0 when `size == 0`);
* the digest hash table is an association list keyed by the 32-byte
  digest; the C table hashes the digest first but resolves collisions by
  comparing full digests (`erofs_blob_hashmap_cmp`), so lookup by digest
  is its exact observable behaviour;
* the SHA-256 primitive (`erofs_sha256`, external to this file in the
  source) is an explicit function parameter `sha`;
* `malloc` for the scratch buffer and the chunk record is assumed to
  succeed; the index-array allocation in `erofs_blob_write_chunked_file`
  is controlled by an explicit `mallocOk` flag, and `open` by passing the
  source file as `Option` (`none` = open fails);
* `DBG_BUGON` is a no-op unless erofs-utils is built with DEBUG, and is
  modelled as a no-op.
-/

namespace Blobchunk

/-- Block size `EROFS_BLKSIZ` (1 shifted by `LOG_BLOCK_SIZE` = 12). -/
def EROFS_BLKSIZ : Nat := 4096

/-- Log2 of the block size. -/
def LOG_BLOCK_SIZE : Nat := 12

/-- Flag bit `EROFS_CHUNK_FORMAT_INDEXES` (0x20) selecting the indexed
chunk format; value from the erofs on-disk format header (not in src). -/
def EROFS_CHUNK_FORMAT_INDEXES : Nat := 32

/-- Data layout tag `EROFS_INODE_CHUNK_BASED`; value from the erofs
on-disk format header (not in src). -/
def EROFS_INODE_CHUNK_BASED : Nat := 4

/-- Width of a legacy block-map entry (a bare 4-byte block address);
value from the erofs on-disk format header (not in src). -/
def EROFS_BLOCK_MAP_ENTRY_SIZE : Nat := 4

/-- Width of `struct erofs_inode_chunk_index` (le16 advise, le16
device_id, le32 blkaddr = 8 bytes); from the erofs on-disk format header
(not in src). -/
def sizeof_erofs_inode_chunk_index : Nat := 8

/-- Byte offset within its block: `erofs_blkoff`. -/
def erofs_blkoff (pos : Nat) : Nat := pos % EROFS_BLKSIZ

/-- Block number of a byte position: `erofs_blknr`. -/
def erofs_blknr (pos : Nat) : Nat := pos / EROFS_BLKSIZ

/-- `DIV_ROUND_UP(n, d)` = ceiling division, as in the C macro. -/
def DIV_ROUND_UP (n d : Nat) : Nat := (n + d - 1) / d

/-- C macro `roundup(x, y)`: round `x` up to a multiple of `y`. -/
def roundup (x y : Nat) : Nat := DIV_ROUND_UP x y * y

/-- Length rounded up to the next block boundary (the staged footprint of
a chunk: its bytes plus the zero padding appended after it). -/
def blkround (n : Nat) : Nat :=
  n + (EROFS_BLKSIZ - n % EROFS_BLKSIZ) % EROFS_BLKSIZ

/-- `struct erofs_blobchunk`: digest, size and staged block address of one
deduplicated chunk (the `hashmap_entry` bookkeeping field is subsumed by
the association-list representation of the table). -/
structure erofs_blobchunk where
  sha256 : List Nat
  chunksize : Nat
  blkaddr : Nat
deriving Repr, DecidableEq, Inhabited

/-- The process-wide mutable state of blobchunk.c: the digest hash table
`blob_hashmap` and the staging file `blobfile` (as its byte content),
plus the modelled capacity of the staging sink. -/
structure BlobState where
  blob_hashmap : List erofs_blobchunk
  blobfile : List Nat
  cap : Option Nat
deriving Repr, DecidableEq

/-- Table lookup by digest: `hashmap_get_from_hash` with
`erofs_blob_hashmap_cmp`, which compares the full 32-byte digests. -/
def hashmap_get : List erofs_blobchunk → List Nat → Option erofs_blobchunk
  | [], _ => none
  | c :: rest, digest =>
    if c.sha256 = digest then some c else hashmap_get rest digest

/-- Table removal by digest: `hashmap_remove` with the same comparator;
removes the (unique) entry whose digest matches. -/
def hashmap_remove : List erofs_blobchunk → List Nat → List erofs_blobchunk
  | [], _ => []
  | c :: rest, digest =>
    if c.sha256 = digest then rest else c :: hashmap_remove rest digest

/-- `fwrite(ptr, size, 1, blobfile)`: returns the number of complete
items written (1 on success, 0 on failure or when `size` is 0). A failed
write leaves the modelled stream content unchanged. -/
def fwrite (st : BlobState) (data : List Nat) : Nat × BlobState :=
  if data.length = 0 then (0, st)
  else
    match st.cap with
    | none => (1, { st with blobfile := st.blobfile ++ data })
    | some k =>
      if st.blobfile.length + data.length ≤ k then
        (1, { st with blobfile := st.blobfile ++ data })
      else (0, st)

/-- `erofs_blob_getchunk(fd, chunksize)`. Its two inputs from `read(2)`
are passed explicitly: `rret` is the value `read` returned and
`chunkdata` the bytes it placed in the buffer. The C check
`ret < chunksize` compares `int ret` with `unsigned int chunksize`, so
`ret` undergoes conversion to `unsigned int`; this is modelled by taking
`rret` modulo `2 ^ 32`. On a table miss the record is inserted before the
data is written and removed again if either the content write or the
padding write fails (`-28` = ENOSPC, `-5` = EIO). -/
def erofs_blob_getchunk (sha : List Nat → List Nat) (st : BlobState)
    (rret : Int) (chunkdata : List Nat) (chunksize : Nat) :
    Except Int erofs_blobchunk × BlobState :=
  if (rret % (2 ^ 32 : Int)).toNat < chunksize then
    (Except.error (-5), st)
  else
    let digest := sha chunkdata
    match hashmap_get st.blob_hashmap digest with
    | some chunk => (Except.ok chunk, st)
    | none =>
      let blkpos := st.blobfile.length
      let chunk : erofs_blobchunk :=
        { sha256 := digest, chunksize := chunksize, blkaddr := erofs_blknr blkpos }
      let st1 : BlobState := { st with blob_hashmap := chunk :: st.blob_hashmap }
      let p1 := fwrite st1 chunkdata
      let p2 :=
        if p1.1 = 1 ∧ erofs_blkoff chunksize ≠ 0 then
          fwrite p1.2 (List.replicate (EROFS_BLKSIZ - erofs_blkoff chunksize) 0)
        else p1
      if p2.1 < 1 then
        (Except.error (-28),
         { p2.2 with blob_hashmap := hashmap_remove p2.2.blob_hashmap digest })
      else (Except.ok chunk, p2.2)

/-- The inode fields `erofs_blob_write_chunked_file` and
`erofs_blob_write_chunk_indexes` read or mutate: `i_size`, the chunk
format flags and chunk bits of `u`, `extent_isize`, the `chunkindexes`
buffer (here the list of chunk-record pointers it holds, `none` = NULL)
and `datalayout`. -/
structure erofs_inode where
  i_size : Nat
  chunkformat : Nat
  chunkbits : Nat
  extent_isize : Nat
  chunkindexes : Option (List erofs_blobchunk)
  datalayout : Nat
deriving Repr, DecidableEq

/-- Index entry unit: `sizeof(struct erofs_inode_chunk_index)` when the
`EROFS_CHUNK_FORMAT_INDEXES` flag is set in the chunk format, otherwise
`EROFS_BLOCK_MAP_ENTRY_SIZE` (the test both functions perform). -/
def unitOf (chunkformat : Nat) : Nat :=
  if chunkformat &&& EROFS_CHUNK_FORMAT_INDEXES ≠ 0 then
    sizeof_erofs_inode_chunk_index
  else EROFS_BLOCK_MAP_ENTRY_SIZE

/-- The per-chunk loop of `erofs_blob_write_chunked_file`: starting at
byte offset `pos`, take `len = min(i_size - pos, chunksize)` bytes,
invoke `erofs_blob_getchunk` on what `read(2)` yields for them (for a
regular file at offset `pos` that is `min(len, length content - pos)`
bytes), and accumulate the chunk records in file order. The structural
fuel equals the number of loop iterations left; the caller passes the
chunk count, which suffices, so the fuel-exhaustion branch (sentinel
error `-1000`) is unreachable. -/
def chunkLoop (sha : List Nat → List Nat) (chunksize : Nat)
    (content : List Nat) (i_size : Nat) :
    Nat → Nat → BlobState → List erofs_blobchunk →
    Except Int (List erofs_blobchunk) × BlobState
  | 0, pos, st, acc =>
    if pos < i_size then (Except.error (-1000), st) else (Except.ok acc, st)
  | fuel + 1, pos, st, acc =>
    if pos < i_size then
      let len := min (i_size - pos) chunksize
      let data := (content.drop pos).take len
      match erofs_blob_getchunk sha st (data.length : Int) data len with
      | (Except.error e, st1) => (Except.error e, st1)
      | (Except.ok chunk, st1) =>
        chunkLoop sha chunksize content i_size fuel (pos + len) st1 (acc ++ [chunk])
    else (Except.ok acc, st)

/-- `erofs_blob_write_chunked_file(inode)`. `c_chunkbits` is
`cfg.c_chunkbits`; the source file is `some content` when `open`
succeeds on `i_srcpath` and `none` when it fails (`-2` = -errno for a
missing file); `mallocOk` tells whether the index-array `malloc`
succeeds (`-12` = ENOMEM). The chunk format flags gain the chunk-bits
delta, `extent_isize` is set to `count * unit`, and on any later failure
`chunkindexes` is freed and reset to NULL while those two fields keep
their mutated values; on success the inode is marked chunk-based. -/
def erofs_blob_write_chunked_file (sha : List Nat → List Nat)
    (c_chunkbits : Nat) (st : BlobState) (inode : erofs_inode)
    (src : Option (List Nat)) (mallocOk : Bool) :
    Except Int Unit × BlobState × erofs_inode :=
  let chunksize := 2 ^ c_chunkbits
  let count := DIV_ROUND_UP inode.i_size chunksize
  let inode1 :=
    { inode with chunkformat :=
        inode.chunkformat ||| (inode.chunkbits - LOG_BLOCK_SIZE) }
  let unit := unitOf inode1.chunkformat
  let inode2 := { inode1 with extent_isize := count * unit }
  if !mallocOk then (Except.error (-12), st, inode2)
  else
    match src with
    | none => (Except.error (-2), st, { inode2 with chunkindexes := none })
    | some content =>
      match chunkLoop sha chunksize content inode2.i_size count 0 st [] with
      | (Except.error e, st1) =>
        (Except.error e, st1, { inode2 with chunkindexes := none })
      | (Except.ok chunks, st1) =>
        (Except.ok (), st1,
         { inode2 with chunkindexes := some chunks,
                       datalayout := EROFS_INODE_CHUNK_BASED })

/-- One serialized chunk-index entry: either a legacy block-map entry (a
bare block address) or an indexed-format `erofs_inode_chunk_index`
record (advise and device_id stay 0, as in the zero-initialized `idx`). -/
inductive SerEntry where
  | blockMap (blkaddr : Nat)
  | indexed (advise : Nat) (device_id : Nat) (blkaddr : Nat)
deriving Repr, DecidableEq, Inhabited

/-- Block-address field of a serialized entry. -/
def SerEntry.addr : SerEntry → Nat
  | .blockMap a => a
  | .indexed _ _ a => a

/-- `erofs_blob_write_chunk_indexes(inode, off)` with the remap base as
an explicit argument (it is the static `remapped_base` in C). The loop
runs `dst = 0, unit, 2*unit, ...` while `dst < extent_isize`, i.e.
`DIV_ROUND_UP(extent_isize, unit)` iterations, replacing the i-th stored
chunk pointer by an entry whose block address is
`chunk->blkaddr + remapped_base`; then `off` is rounded up to the unit
and `dev_write(chunkindexes, off, extent_isize)` is issued. The result
is the rewritten entry buffer, the write offset and the write length. -/
def erofs_blob_write_chunk_indexes (remapped_base : Nat)
    (inode : erofs_inode) (off : Nat) : List SerEntry × Nat × Nat :=
  let unit := unitOf inode.chunkformat
  let chunks := inode.chunkindexes.getD []
  let n := DIV_ROUND_UP inode.extent_isize unit
  let entries := (List.range n).map (fun i =>
    let chunk := chunks.getD i default
    if inode.chunkformat &&& EROFS_CHUNK_FORMAT_INDEXES ≠ 0 then
      SerEntry.indexed 0 0 (chunk.blkaddr + remapped_base)
    else
      SerEntry.blockMap (chunk.blkaddr + remapped_base))
  (entries, roundup off unit, inode.extent_isize)

/-- Overwrite `dev` starting at byte offset `off` with `data` (the
effect of a positioned bulk copy into the image device). -/
def writeAt (dev : List Nat) (off : Nat) (data : List Nat) : List Nat :=
  dev.take off ++ data ++ dev.drop (off + data.length)

/-- `erofs_blob_remap()`. Modelled from the spec: `erofs_balloc`,
`erofs_mapbh` and `erofs_btell` (cache.c, not under src/) allocate a
region of the requested length in the final image and yield its
block-aligned byte position, modelled by the allocator oracle `balloc`;
`erofs_copy_file_range` (io.c, not under src/) copies up to `length`
bytes from the staging file to the device and returns the count actually
copied (negative on error), modelled by the oracle `copied` with the
first `copied` bytes landing at the allocated position. Per the source,
the requested length is `ftell(blobfile)` (after `fflush`, which the
byte-list model renders a no-op), `remapped_base` becomes the block
number of the region's start, and the result is `-5` (EIO) when fewer
than `length` bytes were copied. Returns (status, remapped_base, new
device content). -/
def erofs_blob_remap (st : BlobState) (device : List Nat)
    (balloc : Nat → Nat) (copied : Int) :
    Except Int Unit × Nat × List Nat :=
  let length := st.blobfile.length
  let pos_out := balloc length
  let remapped_base := erofs_blknr pos_out
  let device1 := writeAt device pos_out (st.blobfile.take copied.toNat)
  ((if copied < (length : Int) then Except.error (-5) else Except.ok ()),
   remapped_base, device1)

/-- A sequence of chunkings through `erofs_blob_getchunk`, one per
element of `datas` (each read in full: `read` returns the chunk's
declared length, which is the content's length). This is the shape in
which chunks reach `erofs_blob_getchunk` from any set of files. Returns
the per-chunk results in order and the final state. -/
def runChunks (sha : List Nat → List Nat) (st : BlobState) :
    List (List Nat) → List (Except Int erofs_blobchunk) × BlobState
  | [] => ([], st)
  | d :: rest =>
    let p := erofs_blob_getchunk sha st (d.length : Int) d d.length
    let q := runChunks sha p.2 rest
    (p.1 :: q.1, q.2)

/-! ## Basic lemmas about the staging append path -/

/-- When `read` returned the full (nonnegative, below `2 ^ 32`) chunk
size, the short-read check does not fire. -/
lemma rret_full_read (cs : Nat) (hcs : cs < 2 ^ 32) :
    ¬ (((cs : Int) % (2 ^ 32 : Int)).toNat < cs) := by
  rw [Int.emod_eq_of_lt (by positivity) (by exact_mod_cast hcs)]
  simp

/-- On a digest-table hit, `erofs_blob_getchunk` returns the stored
record and changes nothing. -/
lemma getchunk_hit (sha : List Nat → List Nat) (st : BlobState)
    (rret : Int) (data : List Nat) (cs : Nat) (c : erofs_blobchunk)
    (hret : ¬ ((rret % (2 ^ 32 : Int)).toNat < cs))
    (hhit : hashmap_get st.blob_hashmap (sha data) = some c) :
    erofs_blob_getchunk sha st rret data cs = (Except.ok c, st) := by
  simp only [erofs_blob_getchunk, if_neg hret, hhit]

/-- Removing the digest that was just prepended restores the table. -/
lemma hashmap_remove_cons_self (c : erofs_blobchunk)
    (m : List erofs_blobchunk) (digest : List Nat) (h : c.sha256 = digest) :
    hashmap_remove (c :: m) digest = m := by
  simp [hashmap_remove, h]

/-- A modelled `fwrite` either writes the whole item (result 1) or
nothing at all (result 0). -/
lemma fwrite_cases (st : BlobState) (data : List Nat) :
    fwrite st data = (1, { st with blobfile := st.blobfile ++ data }) ∨
    fwrite st data = (0, st) := by
  unfold fwrite
  by_cases hd : data.length = 0
  · simp [hd]
  · match h : st.cap with
    | none => simp [hd]
    | some k =>
      by_cases hfit : st.blobfile.length + data.length ≤ k <;>
        simp [hd, hfit]

/-- Padding width rewrite for a chunk size that is not block-aligned. -/
lemma pad_eq_of_ne (cs : Nat) (hoff : erofs_blkoff cs ≠ 0) :
    (EROFS_BLKSIZ - cs % EROFS_BLKSIZ) % EROFS_BLKSIZ =
      EROFS_BLKSIZ - erofs_blkoff cs := by
  simp only [erofs_blkoff, EROFS_BLKSIZ] at hoff ⊢
  omega

/-- Padding width rewrite for a block-aligned chunk size. -/
lemma pad_eq_of_zero (cs : Nat) (hoff : erofs_blkoff cs = 0) :
    (EROFS_BLKSIZ - cs % EROFS_BLKSIZ) % EROFS_BLKSIZ = 0 := by
  simp only [erofs_blkoff, EROFS_BLKSIZ] at hoff ⊢
  omega

/-- On a digest-table miss, if `erofs_blob_getchunk` succeeds then the
returned record is the freshly created one (digest of the data, declared
size, block number of the old end of the staging file), the record was
prepended to the table, and the staging file grew by exactly the chunk
bytes followed by the zero padding to the next block boundary. -/
lemma getchunk_miss_ok_shape (sha : List Nat → List Nat) (st : BlobState)
    (rret : Int) (data : List Nat) (cs : Nat) (c : erofs_blobchunk)
    (hret : ¬ ((rret % (2 ^ 32 : Int)).toNat < cs))
    (hmiss : hashmap_get st.blob_hashmap (sha data) = none)
    (hok : (erofs_blob_getchunk sha st rret data cs).1 = Except.ok c) :
    c = ⟨sha data, cs, erofs_blknr st.blobfile.length⟩ ∧
    (erofs_blob_getchunk sha st rret data cs).2 =
      { st with
        blob_hashmap := c :: st.blob_hashmap,
        blobfile := st.blobfile ++ data ++
          List.replicate ((EROFS_BLKSIZ - cs % EROFS_BLKSIZ) % EROFS_BLKSIZ) 0 } := by
  obtain ⟨m, f, cp⟩ := st
  simp only [erofs_blob_getchunk, if_neg hret, hmiss] at hok ⊢
  rcases fwrite_cases ⟨⟨sha data, cs, erofs_blknr f.length⟩ :: m, f, cp⟩ data with h1 | h1
  · rw [h1] at hok ⊢
    by_cases hoff : erofs_blkoff cs = 0
    · simp only [hoff, ne_eq, not_true_eq_false, and_false, if_false,
        if_neg (by decide : ¬ (1 : Nat) < 1)] at hok ⊢
      have hc : c = ⟨sha data, cs, erofs_blknr f.length⟩ :=
        ((Except.ok.inj hok)).symm
      refine ⟨hc, ?_⟩
      simp [hc, pad_eq_of_zero cs hoff]
    · simp only [ne_eq, hoff, not_false_eq_true, and_true,
        if_pos (rfl : (1 : Nat) = 1)] at hok ⊢
      rcases fwrite_cases ⟨⟨sha data, cs, erofs_blknr f.length⟩ :: m, f ++ data, cp⟩
          (List.replicate (EROFS_BLKSIZ - erofs_blkoff cs) 0) with h2 | h2
      · rw [h2] at hok ⊢
        simp only [if_neg (by decide : ¬ (1 : Nat) < 1)] at hok ⊢
        have hc : c = ⟨sha data, cs, erofs_blknr f.length⟩ :=
          ((Except.ok.inj hok)).symm
        refine ⟨hc, ?_⟩
        simp [hc, pad_eq_of_ne cs hoff]
      · rw [h2] at hok
        simp at hok
  · rw [h1] at hok
    simp only [ne_eq, if_neg (by simp : ¬ ((0 : Nat) = 1 ∧ erofs_blkoff cs ≠ 0)),
      if_pos (by decide : (0 : Nat) < 1)] at hok
    simp at hok

/-- A successful `fwrite` against a bounded sink implies the bytes fit. -/
lemma fwrite_one_fit (st : BlobState) (data : List Nat) (k : Nat)
    (hcap : st.cap = some k) (h : (fwrite st data).1 = 1) :
    st.blobfile.length + data.length ≤ k := by
  unfold fwrite at h
  by_cases hd : data.length = 0
  · simp [hd] at h
  · simp only [hd, if_false, hcap] at h
    by_cases hfit : st.blobfile.length + data.length ≤ k
    · exact hfit
    · simp [hfit] at h

/-- An `fwrite` that would exceed a bounded sink writes nothing. -/
lemma fwrite_overflow (st : BlobState) (data : List Nat) (k : Nat)
    (hcap : st.cap = some k)
    (hover : k < st.blobfile.length + data.length) :
    fwrite st data = (0, st) := by
  unfold fwrite
  by_cases hd : data.length = 0
  · rw [if_pos hd]
  · simp only [hd, if_false, hcap]
    rw [if_neg (by omega)]

/-! ## Claim C2: a failed append rolls the digest table back -/

/-- C2: if, during `erofs_blob_getchunk` for a previously unseen digest,
the write of the chunk bytes or of the trailing zero padding accepts
fewer items than requested (here: the staging sink's capacity `k` cannot
take the chunk's block-rounded footprint), the call fails with an error
(ENOSPC) and the digest table afterwards has no entry for that digest: a
subsequent lookup misses, no partial record remains visible. -/
theorem c2_failed_append_rolls_back (sha : List Nat → List Nat)
    (st : BlobState) (rret : Int) (data : List Nat) (cs k : Nat)
    (hret : ¬ ((rret % (2 ^ 32 : Int)).toNat < cs))
    (hlen : data.length = cs)
    (hmiss : hashmap_get st.blob_hashmap (sha data) = none)
    (hcap : st.cap = some k)
    (hover : k < st.blobfile.length + blkround cs) :
    (erofs_blob_getchunk sha st rret data cs).1 = Except.error (-28) ∧
    hashmap_get (erofs_blob_getchunk sha st rret data cs).2.blob_hashmap
      (sha data) = none := by
  obtain ⟨m, f, cp⟩ := st
  change cp = some k at hcap
  subst hcap
  simp only [erofs_blob_getchunk, if_neg hret, hmiss]
  simp only [blkround] at hover
  rcases fwrite_cases ⟨⟨sha data, cs, erofs_blknr f.length⟩ :: m, f, some k⟩ data with h1 | h1
  · have hfit : f.length + data.length ≤ k :=
      fwrite_one_fit _ _ _ rfl (by rw [h1])
    have hoff : erofs_blkoff cs ≠ 0 := by
      simp only [erofs_blkoff, EROFS_BLKSIZ] at hover ⊢
      omega
    rw [h1]
    simp only [ne_eq, hoff, not_false_eq_true, and_true,
      if_pos (rfl : (1 : Nat) = 1)]
    rw [fwrite_overflow _ _ k rfl
      (by
        simp only [List.length_append, List.length_replicate, erofs_blkoff,
          EROFS_BLKSIZ] at hover ⊢
        omega)]
    norm_num
    rw [hashmap_remove_cons_self ⟨sha data, cs, erofs_blknr f.length⟩ m
      (sha data) rfl]
    exact hmiss
  · rw [h1]
    simp only [ne_eq, if_neg (by simp : ¬ ((0 : Nat) = 1 ∧ erofs_blkoff cs ≠ 0)),
      if_pos (by decide : (0 : Nat) < 1)]
    refine ⟨by trivial, ?_⟩
    rw [hashmap_remove_cons_self ⟨sha data, cs, erofs_blknr f.length⟩ m
      (sha data) rfl]
    exact hmiss

/-- Witness for C2 at a concrete input: a 1-byte chunk against a sink of
capacity 0 fails and leaves the digest table without the digest. -/
theorem c2_failed_append_rolls_back_witness :
    (erofs_blob_getchunk (fun l => l) ⟨[], [], some 0⟩ 1 [5] 1).1 =
      Except.error (-28) ∧
    hashmap_get (erofs_blob_getchunk (fun l => l) ⟨[], [], some 0⟩ 1 [5] 1).2.blob_hashmap
      ((fun l => l) [5]) = none :=
  c2_failed_append_rolls_back (fun l => l) ⟨[], [], some 0⟩ 1 [5] 1 0
    (by decide) rfl rfl rfl (by decide)

/-! ## Claim C4: block alignment of every successful staging append -/

/-- C4: a successful staging append (digest miss followed by a chunk
write that `erofs_blob_getchunk` reports as successful) starts the
chunk's byte range at a block boundary, appends exactly the chunk bytes
followed by zero padding to the next block boundary, and leaves the
staging store's total length a multiple of the block size. -/
theorem c4_append_alignment (sha : List Nat → List Nat) (st : BlobState)
    (rret : Int) (data : List Nat) (cs : Nat) (c : erofs_blobchunk)
    (hret : ¬ ((rret % (2 ^ 32 : Int)).toNat < cs))
    (hlen : data.length = cs)
    (hal : st.blobfile.length % EROFS_BLKSIZ = 0)
    (hmiss : hashmap_get st.blob_hashmap (sha data) = none)
    (hok : (erofs_blob_getchunk sha st rret data cs).1 = Except.ok c) :
    c.blkaddr * EROFS_BLKSIZ = st.blobfile.length ∧
    (erofs_blob_getchunk sha st rret data cs).2.blobfile =
      st.blobfile ++ data ++
        List.replicate ((EROFS_BLKSIZ - cs % EROFS_BLKSIZ) % EROFS_BLKSIZ) 0 ∧
    (erofs_blob_getchunk sha st rret data cs).2.blobfile.length %
      EROFS_BLKSIZ = 0 := by
  obtain ⟨hc, hst⟩ := getchunk_miss_ok_shape sha st rret data cs c hret hmiss hok
  refine ⟨?_, ?_, ?_⟩
  · rw [hc]
    exact Nat.div_mul_cancel (Nat.dvd_of_mod_eq_zero hal)
  · rw [hst]
  · rw [hst]
    simp only [List.length_append, List.length_replicate, hlen]
    simp only [EROFS_BLKSIZ] at hal ⊢
    omega

/-- Concrete evaluation: staging a fresh 1-byte chunk into an empty
unbounded store succeeds and returns the fresh record. -/
lemma getchunk_small_eval :
    (erofs_blob_getchunk (fun l => l) ⟨[], [], none⟩ 1 [7] 1).1 =
      Except.ok ⟨[7], 1, 0⟩ := by
  rw [erofs_blob_getchunk]
  rw [if_neg (by decide : ¬ (((1 : Int) % (2 ^ 32 : Int)).toNat < 1))]
  simp only [hashmap_get]
  have hf1 : fwrite ⟨[⟨[7], 1, erofs_blknr ([] : List Nat).length⟩], [], none⟩ [7] =
      (1, ⟨[⟨[7], 1, erofs_blknr ([] : List Nat).length⟩], [] ++ [7], none⟩) := rfl
  rw [hf1]
  rw [if_pos (⟨rfl, by decide⟩ : (1 : Nat) = 1 ∧ erofs_blkoff 1 ≠ 0)]
  have hf2 : (fwrite ⟨[⟨[7], 1, erofs_blknr ([] : List Nat).length⟩], [] ++ [7], none⟩
      (List.replicate (EROFS_BLKSIZ - erofs_blkoff 1) 0)).1 = 1 := by
    simp only [fwrite, List.length_replicate]
    norm_num [erofs_blkoff, EROFS_BLKSIZ]
  rw [if_neg (by rw [hf2]; decide)]
  rfl

/-- Witness for C4 at a concrete input: staging a fresh 1-byte chunk
into an empty store lands at block 0 and pads to one full block. -/
theorem c4_append_alignment_witness :
    (⟨[7], 1, 0⟩ : erofs_blobchunk).blkaddr * EROFS_BLKSIZ =
      (⟨[], [], none⟩ : BlobState).blobfile.length ∧
    (erofs_blob_getchunk (fun l => l) ⟨[], [], none⟩ 1 [7] 1).2.blobfile =
      (⟨[], [], none⟩ : BlobState).blobfile ++ [7] ++
        List.replicate ((EROFS_BLKSIZ - 1 % EROFS_BLKSIZ) % EROFS_BLKSIZ) 0 ∧
    (erofs_blob_getchunk (fun l => l) ⟨[], [], none⟩ 1 [7] 1).2.blobfile.length %
      EROFS_BLKSIZ = 0 :=
  c4_append_alignment (fun l => l) ⟨[], [], none⟩ 1 [7] 1 ⟨[7], 1, 0⟩
    (by decide) rfl rfl rfl getchunk_small_eval

/-! ## Claim C6: a read yielding less than the declared length -/

/-- C6 (code bug exhibit): when `read(2)` reports an error by returning
`-1` while fetching a 4096-byte chunk, `erofs_blob_getchunk` does not
fail: the C check `ret < chunksize` compares `int ret` against
`unsigned int chunksize`, so `-1` converts to `4294967295` and the
short-read branch is skipped; the function hashes and stages the
(uninitialized) buffer and returns a fresh record as if the read had
succeeded. A nonnegative short count is caught (see the short-read
branch of the embedding), but the error case the claim includes is not. -/
theorem c6_read_error_escapes_check :
    (erofs_blob_getchunk (fun l => l) ⟨[], [], none⟩ (-1)
        (List.replicate 4096 0) 4096).1 =
      Except.ok ⟨List.replicate 4096 0, 4096, 0⟩ := by
  rw [erofs_blob_getchunk]
  rw [if_neg (by decide : ¬ ((((-1) : Int) % (2 ^ 32 : Int)).toNat < 4096))]
  simp only [hashmap_get]
  have hf1 : fwrite ⟨[⟨List.replicate 4096 0, 4096, erofs_blknr ([] : List Nat).length⟩],
      [], none⟩ (List.replicate 4096 0) =
      (1, ⟨[⟨List.replicate 4096 0, 4096, erofs_blknr ([] : List Nat).length⟩],
        [] ++ List.replicate 4096 0, none⟩) := by
    simp only [fwrite, List.length_replicate]
    norm_num
  rw [hf1]
  rw [if_neg (by decide : ¬ ((1 : Nat) = 1 ∧ erofs_blkoff 4096 ≠ 0))]
  rw [if_neg (by decide : ¬ ((1 : Nat) < 1))]
  rfl

/-! ## Claim C7: digest collision with a different size -/

/-- C7 counterexample: with a colliding digest function, a 1-byte chunk
whose digest equals that of a stored 4096-byte record is resolved by
silently returning the stored record — no error is surfaced, although
the sizes differ. (`DBG_BUGON` compiles to nothing outside DEBUG
builds.) This refutes the claim that the mismatch is surfaced as an
error rather than silently accepted. -/
theorem c7_collision_counterexample :
    (erofs_blob_getchunk (fun _ => List.replicate 32 0)
        ⟨[⟨List.replicate 32 0, 4096, 0⟩], List.replicate 4096 7, none⟩
        1 [9] 1).1 =
      Except.ok ⟨List.replicate 32 0, 4096, 0⟩ ∧
    (⟨List.replicate 32 0, 4096, 0⟩ : erofs_blobchunk).chunksize ≠ 1 := by
  constructor
  · rfl
  · decide

/-- C7 amended: on a digest-table hit whose stored record's size differs
from the new chunk's size, the size check is only a debug-build
assertion (`DBG_BUGON`); in a normal build `erofs_blob_getchunk`
silently reuses the existing record for the differently-sized content,
returning it with no error and leaving all state unchanged. -/
theorem c7_collision_silently_reused (sha : List Nat → List Nat)
    (st : BlobState) (rret : Int) (data : List Nat) (cs : Nat)
    (c : erofs_blobchunk)
    (hret : ¬ ((rret % (2 ^ 32 : Int)).toNat < cs))
    (hhit : hashmap_get st.blob_hashmap (sha data) = some c)
    (hmismatch : c.chunksize ≠ cs) :
    erofs_blob_getchunk sha st rret data cs = (Except.ok c, st) :=
  getchunk_hit sha st rret data cs c hret hhit

/-- Witness for the amended C7 at a concrete input: the stored 4096-byte
record is silently reused for a 1-byte chunk with the same digest. -/
theorem c7_collision_silently_reused_witness :
    erofs_blob_getchunk (fun _ => List.replicate 32 1)
        ⟨[⟨List.replicate 32 1, 4096, 0⟩], List.replicate 4096 7, none⟩
        1 [8] 1 =
      (Except.ok ⟨List.replicate 32 1, 4096, 0⟩,
       ⟨[⟨List.replicate 32 1, 4096, 0⟩], List.replicate 4096 7, none⟩) :=
  c7_collision_silently_reused (fun _ => List.replicate 32 1)
    ⟨[⟨List.replicate 32 1, 4096, 0⟩], List.replicate 4096 7, none⟩
    1 [8] 1 ⟨List.replicate 32 1, 4096, 0⟩ (by decide) rfl (by decide)

/-! ## Claim C5: serialized chunk indexes after remap -/

/-- The entry unit is positive in both formats. -/
lemma unitOf_pos (chunkformat : Nat) : 0 < unitOf chunkformat := by
  unfold unitOf sizeof_erofs_inode_chunk_index EROFS_BLOCK_MAP_ENTRY_SIZE
  split <;> decide

/-- Ceiling division recovers the factor on an exact multiple. -/
lemma div_round_up_mul (a u : Nat) (hu : 0 < u) :
    DIV_ROUND_UP (a * u) u = a := by
  unfold DIV_ROUND_UP
  have h1 : a * u + u - 1 = u * a + (u - 1) := by
    rw [Nat.mul_comm]
    omega
  rw [h1, Nat.mul_add_div hu, Nat.div_eq_of_lt (by omega), Nat.add_zero]

/-- C5: for a chunked inode whose reserved index area is exactly one
unit per chunk, `erofs_blob_write_chunk_indexes` produces one entry per
chunk, in file order, whose block-address field is the chunk's staged
block address plus the remap base — in the indexed format and in the
legacy block-map format alike — and issues the device write at the
offset rounded up to the entry unit, over the reserved area's length. -/
theorem c5_chunk_indexes_remapped (remapped_base : Nat)
    (inode : erofs_inode) (off : Nat) (chunks : List erofs_blobchunk)
    (hidx : inode.chunkindexes = some chunks)
    (hsz : inode.extent_isize = chunks.length * unitOf inode.chunkformat) :
    (erofs_blob_write_chunk_indexes remapped_base inode off).1.length =
      chunks.length ∧
    (∀ i, i < chunks.length →
      ((erofs_blob_write_chunk_indexes remapped_base inode off).1.getD i
          default).addr =
        (chunks.getD i default).blkaddr + remapped_base) ∧
    (erofs_blob_write_chunk_indexes remapped_base inode off).2.1 =
      roundup off (unitOf inode.chunkformat) ∧
    (erofs_blob_write_chunk_indexes remapped_base inode off).2.2 =
      inode.extent_isize := by
  have hu : 0 < unitOf inode.chunkformat := unitOf_pos _
  have hn : DIV_ROUND_UP inode.extent_isize (unitOf inode.chunkformat) =
      chunks.length := by
    rw [hsz, div_round_up_mul _ _ hu]
  unfold erofs_blob_write_chunk_indexes
  rw [hidx]
  simp only [Option.getD_some]
  rw [hn]
  refine ⟨by simp, ?_, by trivial, by trivial⟩
  intro i hi
  rw [List.getD_eq_getElem _ _ (by simpa using hi)]
  simp only [List.getElem_map, List.getElem_range]
  by_cases hfmt : inode.chunkformat &&& EROFS_CHUNK_FORMAT_INDEXES ≠ 0 <;>
    simp [hfmt, SerEntry.addr]

/-- Witness for C5 at a concrete input: two chunks in the legacy
block-map format, with write offset 3 rounded up to the 4-byte unit. -/
theorem c5_chunk_indexes_remapped_witness :
    (erofs_blob_write_chunk_indexes 10
        ⟨8192, 0, 12, 8, some [⟨[1], 4096, 0⟩, ⟨[2], 4096, 1⟩], 4⟩ 3).1.length =
      ([⟨[1], 4096, 0⟩, ⟨[2], 4096, 1⟩] : List erofs_blobchunk).length ∧
    (∀ i, i < ([⟨[1], 4096, 0⟩, ⟨[2], 4096, 1⟩] : List erofs_blobchunk).length →
      ((erofs_blob_write_chunk_indexes 10
          ⟨8192, 0, 12, 8, some [⟨[1], 4096, 0⟩, ⟨[2], 4096, 1⟩], 4⟩ 3).1.getD i
          default).addr =
        (([⟨[1], 4096, 0⟩, ⟨[2], 4096, 1⟩] : List erofs_blobchunk).getD i
          default).blkaddr + 10) ∧
    (erofs_blob_write_chunk_indexes 10
        ⟨8192, 0, 12, 8, some [⟨[1], 4096, 0⟩, ⟨[2], 4096, 1⟩], 4⟩ 3).2.1 =
      roundup 3 (unitOf 0) ∧
    (erofs_blob_write_chunk_indexes 10
        ⟨8192, 0, 12, 8, some [⟨[1], 4096, 0⟩, ⟨[2], 4096, 1⟩], 4⟩ 3).2.2 =
      (⟨8192, 0, 12, 8, some [⟨[1], 4096, 0⟩, ⟨[2], 4096, 1⟩], 4⟩ :
        erofs_inode).extent_isize :=
  c5_chunk_indexes_remapped 10
    ⟨8192, 0, 12, 8, some [⟨[1], 4096, 0⟩, ⟨[2], 4096, 1⟩], 4⟩ 3
    [⟨[1], 4096, 0⟩, ⟨[2], 4096, 1⟩] rfl (by decide)

/-! ## Claim C8: remapping the staging store into the image -/

/-- C8: `erofs_blob_remap` asks the allocator for a region of exactly
the staging store's total byte length, records the remap base as the
block number of the region's block-aligned start, copies the store's
content there, succeeds exactly when the full length was copied (the
copied region then holds the store's bytes verbatim), and fails with EIO
on a short copy. -/
theorem c8_remap_copies_whole_store (st : BlobState) (device : List Nat)
    (balloc : Nat → Nat) (copied : Int)
    (halign : balloc st.blobfile.length % EROFS_BLKSIZ = 0)
    (hpos : balloc st.blobfile.length ≤ device.length)
    (hle : copied ≤ (st.blobfile.length : Int)) :
    (erofs_blob_remap st device balloc copied).2.1 * EROFS_BLKSIZ =
      balloc st.blobfile.length ∧
    (copied = (st.blobfile.length : Int) →
      (erofs_blob_remap st device balloc copied).1 = Except.ok () ∧
      (((erofs_blob_remap st device balloc copied).2.2.drop
          (balloc st.blobfile.length)).take st.blobfile.length =
        st.blobfile)) ∧
    (copied < (st.blobfile.length : Int) →
      (erofs_blob_remap st device balloc copied).1 = Except.error (-5)) := by
  simp only [erofs_blob_remap, erofs_blknr, writeAt]
  refine ⟨Nat.div_mul_cancel (Nat.dvd_of_mod_eq_zero halign), ?_, ?_⟩
  · intro hfull
    subst hfull
    refine ⟨by rw [if_neg (lt_irrefl _)], ?_⟩
    have htk : List.take ((st.blobfile.length : Int)).toNat st.blobfile =
        st.blobfile := by
      rw [Int.toNat_natCast]
      exact List.take_length st.blobfile
    rw [htk]
    have hlen : (device.take (balloc st.blobfile.length)).length =
        balloc st.blobfile.length := by
      rw [List.length_take]
      omega
    rw [List.append_assoc, List.drop_left' hlen, List.take_left' rfl]
  · intro hshort
    rw [if_pos hshort]

/-- Witness for C8 at a concrete input: a 3-byte store relocated to
byte position 0 of a 5-byte device with a full copy. -/
theorem c8_remap_copies_whole_store_witness :
    (erofs_blob_remap ⟨[], [9, 8, 7], none⟩ [1, 2, 3, 4, 5] (fun _ => 0) 3).2.1 *
      EROFS_BLKSIZ = (fun _ => 0) ([9, 8, 7] : List Nat).length ∧
    ((3 : Int) = (([9, 8, 7] : List Nat).length : Int) →
      (erofs_blob_remap ⟨[], [9, 8, 7], none⟩ [1, 2, 3, 4, 5] (fun _ => 0) 3).1 =
        Except.ok () ∧
      (((erofs_blob_remap ⟨[], [9, 8, 7], none⟩ [1, 2, 3, 4, 5]
          (fun _ => 0) 3).2.2.drop ((fun _ => 0) ([9, 8, 7] : List Nat).length)).take
          ([9, 8, 7] : List Nat).length = [9, 8, 7])) ∧
    ((3 : Int) < (([9, 8, 7] : List Nat).length : Int) →
      (erofs_blob_remap ⟨[], [9, 8, 7], none⟩ [1, 2, 3, 4, 5] (fun _ => 0) 3).1 =
        Except.error (-5)) :=
  c8_remap_copies_whole_store ⟨[], [9, 8, 7], none⟩ [1, 2, 3, 4, 5]
    (fun _ => 0) 3 (by decide) (by decide) (by decide)

/-! ## Claim C9: inode state after a failed chunked-file write -/

/-- C9: whenever `erofs_blob_write_chunked_file` fails (index-array
allocation failure, open failure, or a failed chunk), an inode that
started with a NULL `chunkindexes` ends with a NULL `chunkindexes` and
an unchanged `datalayout` (it is never set to the chunk-based layout on
the error paths), while the chunk-format flags and `extent_isize`,
mutated before the loop, keep their mutated values and are not
restored. -/
theorem c9_error_frame_effect (sha : List Nat → List Nat)
    (c_chunkbits : Nat) (st : BlobState) (inode : erofs_inode)
    (src : Option (List Nat)) (mallocOk : Bool) (e : Int)
    (hprior : inode.chunkindexes = none)
    (herr : (erofs_blob_write_chunked_file sha c_chunkbits st inode src
        mallocOk).1 = Except.error e) :
    (erofs_blob_write_chunked_file sha c_chunkbits st inode src
        mallocOk).2.2.chunkindexes = none ∧
    (erofs_blob_write_chunked_file sha c_chunkbits st inode src
        mallocOk).2.2.datalayout = inode.datalayout ∧
    (erofs_blob_write_chunked_file sha c_chunkbits st inode src
        mallocOk).2.2.chunkformat =
      inode.chunkformat ||| (inode.chunkbits - LOG_BLOCK_SIZE) ∧
    (erofs_blob_write_chunked_file sha c_chunkbits st inode src
        mallocOk).2.2.extent_isize =
      DIV_ROUND_UP inode.i_size (2 ^ c_chunkbits) *
        unitOf (inode.chunkformat ||| (inode.chunkbits - LOG_BLOCK_SIZE)) := by
  unfold erofs_blob_write_chunked_file at herr ⊢
  by_cases hm : mallocOk
  · simp only [hm, Bool.not_true, Bool.false_eq_true, if_false] at herr ⊢
    match src with
    | none => exact ⟨by simp [hprior], by trivial, by trivial, by trivial⟩
    | some content =>
      simp only at herr ⊢
      match hloop : chunkLoop sha (2 ^ c_chunkbits) content inode.i_size
          (DIV_ROUND_UP inode.i_size (2 ^ c_chunkbits)) 0 st [] with
      | (Except.error e1, st1) =>
        exact ⟨by trivial, by trivial, by trivial, by trivial⟩
      | (Except.ok chunks, st1) =>
        rw [hloop] at herr
        exact Except.noConfusion herr
  · simp only [hm, Bool.not_false, if_true] at herr ⊢
    exact ⟨by simp [hprior], by trivial, by trivial, by trivial⟩

/-- Witness for C9 at a concrete input: `open` fails on a fresh inode. -/
theorem c9_error_frame_effect_witness :
    (erofs_blob_write_chunked_file (fun l => l) 12 ⟨[], [], none⟩
        ⟨100, 0, 12, 0, none, 0⟩ none true).2.2.chunkindexes = none ∧
    (erofs_blob_write_chunked_file (fun l => l) 12 ⟨[], [], none⟩
        ⟨100, 0, 12, 0, none, 0⟩ none true).2.2.datalayout =
      (⟨100, 0, 12, 0, none, 0⟩ : erofs_inode).datalayout ∧
    (erofs_blob_write_chunked_file (fun l => l) 12 ⟨[], [], none⟩
        ⟨100, 0, 12, 0, none, 0⟩ none true).2.2.chunkformat =
      (⟨100, 0, 12, 0, none, 0⟩ : erofs_inode).chunkformat |||
        ((⟨100, 0, 12, 0, none, 0⟩ : erofs_inode).chunkbits - LOG_BLOCK_SIZE) ∧
    (erofs_blob_write_chunked_file (fun l => l) 12 ⟨[], [], none⟩
        ⟨100, 0, 12, 0, none, 0⟩ none true).2.2.extent_isize =
      DIV_ROUND_UP (⟨100, 0, 12, 0, none, 0⟩ : erofs_inode).i_size (2 ^ 12) *
        unitOf ((⟨100, 0, 12, 0, none, 0⟩ : erofs_inode).chunkformat |||
          ((⟨100, 0, 12, 0, none, 0⟩ : erofs_inode).chunkbits - LOG_BLOCK_SIZE)) :=
  c9_error_frame_effect (fun l => l) 12 ⟨[], [], none⟩
    ⟨100, 0, 12, 0, none, 0⟩ none true (-2) rfl rfl

/-! ## Claim C10: a file of size zero -/

/-- C10 counterexample: the claim says a zero-size file succeeds
whenever the index-buffer allocation succeeds, but `open` still runs
before the loop: with a successful allocation and a failing `open`, the
call returns an error, not success. -/
theorem c10_zero_size_counterexample :
    (erofs_blob_write_chunked_file (fun l => l) 12 ⟨[], [], none⟩
        ⟨0, 0, 12, 0, none, 0⟩ none true).1 = Except.error (-2) := rfl

/-- C10 amended: for a file of size 0, `erofs_blob_write_chunked_file`
succeeds whenever the index-buffer allocation and the source `open`
succeed: the per-chunk loop runs zero times, nothing is read or staged
(the blob state is unchanged), the inode's `extent_isize` is 0, its
chunk-reference list is empty, and it is nevertheless marked with the
chunk-based data layout. -/
theorem c10_zero_size_succeeds (sha : List Nat → List Nat)
    (c_chunkbits : Nat) (st : BlobState) (inode : erofs_inode)
    (content : List Nat)
    (hsz : inode.i_size = 0) :
    (erofs_blob_write_chunked_file sha c_chunkbits st inode
        (some content) true).1 = Except.ok () ∧
    (erofs_blob_write_chunked_file sha c_chunkbits st inode
        (some content) true).2.1 = st ∧
    (erofs_blob_write_chunked_file sha c_chunkbits st inode
        (some content) true).2.2.extent_isize = 0 ∧
    (erofs_blob_write_chunked_file sha c_chunkbits st inode
        (some content) true).2.2.chunkindexes = some [] ∧
    (erofs_blob_write_chunked_file sha c_chunkbits st inode
        (some content) true).2.2.datalayout = EROFS_INODE_CHUNK_BASED := by
  have hcount : DIV_ROUND_UP inode.i_size (2 ^ c_chunkbits) = 0 := by
    rw [hsz]
    unfold DIV_ROUND_UP
    have hp : 0 < 2 ^ c_chunkbits := pow_pos (by decide) c_chunkbits
    exact Nat.div_eq_of_lt (by omega)
  have hloop : chunkLoop sha (2 ^ c_chunkbits) content inode.i_size 0 0 st [] =
      (Except.ok [], st) := by
    unfold chunkLoop
    rw [if_neg (by omega : ¬ ((0 : Nat) < inode.i_size))]
  unfold erofs_blob_write_chunked_file
  simp only [Bool.not_true, Bool.false_eq_true, if_false, hcount, hloop]
  exact ⟨by trivial, by trivial, by simp, by trivial, by trivial⟩

/-- Witness for the amended C10 at a concrete input. -/
theorem c10_zero_size_succeeds_witness :
    (erofs_blob_write_chunked_file (fun l => l) 12 ⟨[], [], none⟩
        ⟨0, 0, 12, 0, none, 0⟩ (some []) true).1 = Except.ok () ∧
    (erofs_blob_write_chunked_file (fun l => l) 12 ⟨[], [], none⟩
        ⟨0, 0, 12, 0, none, 0⟩ (some []) true).2.1 = ⟨[], [], none⟩ ∧
    (erofs_blob_write_chunked_file (fun l => l) 12 ⟨[], [], none⟩
        ⟨0, 0, 12, 0, none, 0⟩ (some []) true).2.2.extent_isize = 0 ∧
    (erofs_blob_write_chunked_file (fun l => l) 12 ⟨[], [], none⟩
        ⟨0, 0, 12, 0, none, 0⟩ (some []) true).2.2.chunkindexes = some [] ∧
    (erofs_blob_write_chunked_file (fun l => l) 12 ⟨[], [], none⟩
        ⟨0, 0, 12, 0, none, 0⟩ (some []) true).2.2.datalayout =
      EROFS_INODE_CHUNK_BASED :=
  c10_zero_size_succeeds (fun l => l) 12 ⟨[], [], none⟩
    ⟨0, 0, 12, 0, none, 0⟩ [] rfl

/-! ## Claim C3: the chunk partition of a file -/

/-- Sequence of declared chunk lengths when `rem` bytes remain and the
chunk size is `cs`: `min rem cs` repeatedly until nothing remains. -/
def lens (cs rem : Nat) : List Nat :=
  if h : rem = 0 ∨ cs = 0 then []
  else min rem cs :: lens cs (rem - min rem cs)
termination_by rem
decreasing_by
  push_neg at h
  omega

/-- The partition has `DIV_ROUND_UP rem cs` pieces. -/
lemma lens_length (cs : Nat) (hcs : 0 < cs) (rem : Nat) :
    (lens cs rem).length = DIV_ROUND_UP rem cs := by
  induction rem using Nat.strong_induction_on with
  | _ rem ih =>
    rw [lens]
    by_cases h : rem = 0 ∨ cs = 0
    · rw [dif_pos h]
      rcases h with h | h
      · subst h
        unfold DIV_ROUND_UP
        simp only [List.length_nil, Nat.zero_add]
        exact (Nat.div_eq_of_lt (by omega)).symm
      · omega
    · push_neg at h
      rw [dif_neg (by omega)]
      simp only [List.length_cons]
      rw [ih (rem - min rem cs) (by omega)]
      unfold DIV_ROUND_UP
      by_cases hle : rem ≤ cs
      · have h1 : min rem cs = rem := by omega
        rw [h1, Nat.sub_self]
        have hC : 0 + cs - 1 = cs - 1 := by omega
        rw [hC, Nat.div_eq_of_lt (show cs - 1 < cs by omega)]
        have hB : rem + cs - 1 = (rem - 1) + cs := by omega
        rw [hB, Nat.add_div_right _ hcs,
          Nat.div_eq_of_lt (show rem - 1 < cs by omega)]
      · have h1 : min rem cs = cs := by omega
        rw [h1]
        have hA : rem - cs + cs - 1 = rem - 1 - cs + cs := by omega
        rw [hA, Nat.add_div_right _ hcs]
        have hB : rem + cs - 1 = rem - 1 - cs + cs + cs := by omega
        rw [hB, Nat.add_div_right _ hcs, Nat.add_div_right _ hcs]

/-- Every piece except the last is a full chunk. -/
lemma lens_getD_full (cs : Nat) (hcs : 0 < cs) (rem : Nat) :
    ∀ i, i + 1 < (lens cs rem).length → (lens cs rem).getD i 0 = cs := by
  induction rem using Nat.strong_induction_on with
  | _ rem ih =>
    intro i hi
    rw [lens] at hi ⊢
    by_cases h : rem = 0 ∨ cs = 0
    · rw [dif_pos h] at hi
      simp at hi
    · push_neg at h
      rw [dif_neg (by omega)] at hi ⊢
      match i with
      | 0 =>
        simp only [List.getD_cons_zero]
        simp only [List.length_cons] at hi
        by_cases hle : rem ≤ cs
        · exfalso
          have h1 : min rem cs = rem := by omega
          rw [h1, Nat.sub_self, lens, dif_pos (Or.inl rfl)] at hi
          simp at hi
        · omega
      | i + 1 =>
        simp only [List.getD_cons_succ]
        simp only [List.length_cons] at hi
        exact ih (rem - min rem cs) (by omega) i (by omega)

/-- The last piece carries the remainder of the file. -/
lemma lens_getD_last (cs : Nat) (hcs : 0 < cs) (rem : Nat) (hrem : 0 < rem) :
    (lens cs rem).getD ((lens cs rem).length - 1) 0 =
      rem - ((lens cs rem).length - 1) * cs := by
  induction rem using Nat.strong_induction_on with
  | _ rem ih =>
    rw [lens]
    rw [dif_neg (by omega)]
    by_cases hle : rem ≤ cs
    · have h1 : min rem cs = rem := by omega
      rw [h1, Nat.sub_self, lens, dif_pos (Or.inl rfl)]
      simp
    · have h1 : min rem cs = cs := by omega
      rw [h1]
      have hpos2 : 0 < (lens cs (rem - cs)).length := by
        rw [lens_length cs hcs]
        unfold DIV_ROUND_UP
        have h3 : rem - cs + cs - 1 = (rem - cs - 1) + cs := by omega
        rw [h3, Nat.add_div_right _ hcs]
        exact Nat.succ_pos _
      simp only [List.length_cons]
      have hidx : (lens cs (rem - cs)).length + 1 - 1 =
          ((lens cs (rem - cs)).length - 1) + 1 := by omega
      rw [hidx, List.getD_cons_succ]
      rw [ih (rem - cs) (by omega) (by omega)]
      have hmul : ((lens cs (rem - cs)).length - 1 + 1) * cs =
          cs + ((lens cs (rem - cs)).length - 1) * cs := by
        rw [Nat.add_mul]
        omega
      rw [hmul]
      omega

/-- A successful table lookup returns a member with the looked-up
digest. -/
lemma hashmap_get_mem (m : List erofs_blobchunk) (digest : List Nat)
    (c : erofs_blobchunk) (h : hashmap_get m digest = some c) :
    c ∈ m ∧ c.sha256 = digest := by
  induction m with
  | nil => simp [hashmap_get] at h
  | cons a rest ih =>
    rw [hashmap_get] at h
    by_cases ha : a.sha256 = digest
    · rw [if_pos ha] at h
      obtain rfl := Option.some.inj h
      exact ⟨List.mem_cons_self a rest, ha⟩
    · rw [if_neg ha] at h
      obtain ⟨h1, h2⟩ := ih h
      exact ⟨List.mem_cons_of_mem _ h1, h2⟩

/-- Well-formedness of the digest table: every record stems from some
content whose digest and length match the record (true of every table
reachable from the empty one). -/
def TableWF (sha : List Nat → List Nat) (m : List erofs_blobchunk) : Prop :=
  ∀ c ∈ m, ∃ d, c.sha256 = sha d ∧ c.chunksize = d.length

/-- `fwrite` on an unbounded sink writes the item whole. -/
lemma fwrite_none_ok (st : BlobState) (data : List Nat)
    (hcap : st.cap = none) (hne : data.length ≠ 0) :
    fwrite st data = (1, { st with blobfile := st.blobfile ++ data }) := by
  unfold fwrite
  rw [if_neg hne, hcap]

/-- Full description of a staging append against an unbounded sink: the
record is created from the data's digest, the declared size, and the
block number of the old end of the staging file; the file grows by the
chunk bytes plus block padding. -/
lemma getchunk_miss_ok (sha : List Nat → List Nat) (st : BlobState)
    (rret : Int) (data : List Nat) (cs : Nat)
    (hret : ¬ ((rret % (2 ^ 32 : Int)).toNat < cs))
    (hmiss : hashmap_get st.blob_hashmap (sha data) = none)
    (hcap : st.cap = none) (hne : data.length ≠ 0) :
    erofs_blob_getchunk sha st rret data cs =
      (Except.ok ⟨sha data, cs, erofs_blknr st.blobfile.length⟩,
       ⟨⟨sha data, cs, erofs_blknr st.blobfile.length⟩ :: st.blob_hashmap,
        st.blobfile ++ data ++
          List.replicate ((EROFS_BLKSIZ - cs % EROFS_BLKSIZ) % EROFS_BLKSIZ) 0,
        none⟩) := by
  obtain ⟨m, f, cp⟩ := st
  change cp = none at hcap
  subst hcap
  simp only [erofs_blob_getchunk, if_neg hret, hmiss]
  rw [fwrite_none_ok ⟨⟨sha data, cs, erofs_blknr f.length⟩ :: m, f, none⟩ data
    rfl hne]
  by_cases hoff : erofs_blkoff cs = 0
  · simp only [hoff, ne_eq, not_true_eq_false, and_false, if_false,
      if_neg (by decide : ¬ (1 : Nat) < 1)]
    rw [pad_eq_of_zero cs hoff]
    simp
  · simp only [ne_eq, hoff, not_false_eq_true, and_true,
      if_pos (rfl : (1 : Nat) = 1)]
    rw [fwrite_none_ok _ (List.replicate (EROFS_BLKSIZ - erofs_blkoff cs) 0)
      rfl
      (by
        rw [List.length_replicate]
        have hm := Nat.mod_lt cs (show 0 < EROFS_BLKSIZ by decide)
        simp only [erofs_blkoff] at hoff ⊢
        omega)]
    simp only [if_neg (by decide : ¬ (1 : Nat) < 1)]
    rw [pad_eq_of_ne cs hoff]
    simp [List.append_assoc]

/-- One loop step: under an injective digest function, a well-formed
table and an unbounded sink, `erofs_blob_getchunk` on a fully read chunk
succeeds and yields a record of exactly the declared size (on a hit, the
stored record's size equals the new chunk's size because equal digests
force equal content), preserving well-formedness. -/
lemma getchunk_step (sha : List Nat → List Nat)
    (hinj : Function.Injective sha) (st : BlobState)
    (data : List Nat) (cs : Nat)
    (hcap : st.cap = none) (hwf : TableWF sha st.blob_hashmap)
    (hlen : data.length = cs) (hne : data.length ≠ 0) (hcs32 : cs < 2 ^ 32) :
    ∃ c st1,
      erofs_blob_getchunk sha st (cs : Int) data cs = (Except.ok c, st1) ∧
      c.chunksize = cs ∧ st1.cap = none ∧ TableWF sha st1.blob_hashmap := by
  have hret := rret_full_read cs hcs32
  match hh : hashmap_get st.blob_hashmap (sha data) with
  | some c =>
    refine ⟨c, st, getchunk_hit sha st _ data cs c hret hh, ?_, hcap, hwf⟩
    obtain ⟨hmem, hdig⟩ := hashmap_get_mem _ _ _ hh
    obtain ⟨d, hd1, hd2⟩ := hwf c hmem
    have hshaeq : sha d = sha data := by rw [← hd1, hdig]
    have hdd : d = data := hinj hshaeq
    rw [hd2, hdd, hlen]
  | none =>
    refine ⟨⟨sha data, cs, erofs_blknr st.blobfile.length⟩, _,
      getchunk_miss_ok sha st _ data cs hret hh hcap hne, rfl, rfl, ?_⟩
    intro c hc
    rcases List.mem_cons.mp hc with hc | hc
    · exact ⟨data, by rw [hc], by rw [hc]; exact hlen.symm⟩
    · exact hwf c hc

/-- The per-chunk loop, run with enough fuel over a source that holds at
least `i_size` bytes: it succeeds, appends one record per piece of the
partition, and the records' sizes are exactly the partition `lens`. -/
lemma chunkLoop_ok (sha : List Nat → List Nat)
    (hinj : Function.Injective sha) (cs : Nat) (content : List Nat)
    (i_size : Nat) (hcs : 0 < cs) (hcs32 : cs < 2 ^ 32)
    (hcont : i_size ≤ content.length) :
    ∀ fuel pos st acc, st.cap = none → TableWF sha st.blob_hashmap →
      pos ≤ i_size → i_size - pos ≤ fuel * cs →
      ∃ chunks st1,
        chunkLoop sha cs content i_size fuel pos st acc =
          (Except.ok (acc ++ chunks), st1) ∧
        chunks.map (fun c => c.chunksize) = lens cs (i_size - pos) ∧
        st1.cap = none ∧ TableWF sha st1.blob_hashmap := by
  intro fuel
  induction fuel with
  | zero =>
    intro pos st acc hcap hwf hpos hfuel
    refine ⟨[], st, ?_, ?_, hcap, hwf⟩
    · rw [List.append_nil, chunkLoop, if_neg (by omega)]
    · rw [show i_size - pos = 0 by omega, lens, dif_pos (Or.inl rfl)]
      simp
  | succ fuel ih =>
    intro pos st acc hcap hwf hpos hfuel
    by_cases hlt : pos < i_size
    · have hsm : (fuel + 1) * cs = fuel * cs + cs := by
        rw [Nat.add_mul]
        omega
      rw [hsm] at hfuel
      rw [chunkLoop, if_pos hlt]
      simp only []
      have hlen1 : 1 ≤ min (i_size - pos) cs := by omega
      have hdata_len : ((content.drop pos).take (min (i_size - pos) cs)).length =
          min (i_size - pos) cs := by
        rw [List.length_take, List.length_drop]
        omega
      obtain ⟨c, st1, hstep, hcsize, hcap1, hwf1⟩ :=
        getchunk_step sha hinj st ((content.drop pos).take (min (i_size - pos) cs))
          (min (i_size - pos) cs) hcap hwf hdata_len
          (by omega) (by omega)
      rw [hdata_len]
      simp only [hstep]
      obtain ⟨chunks2, st2, hrec, hmap2, hcap2, hwf2⟩ :=
        ih (pos + min (i_size - pos) cs) st1 (acc ++ [c]) hcap1 hwf1
          (by omega) (by omega)
      refine ⟨c :: chunks2, st2, ?_, ?_, hcap2, hwf2⟩
      · rw [hrec]
        simp [List.append_assoc]
      · rw [List.map_cons, hmap2, hcsize]
        conv_rhs => rw [lens]
        rw [dif_neg (by omega)]
        have harg : i_size - (pos + min (i_size - pos) cs) =
            i_size - pos - min (i_size - pos) cs := by omega
        rw [harg]
    · refine ⟨[], st, ?_, ?_, hcap, hwf⟩
      · rw [List.append_nil, chunkLoop, if_neg hlt]
      · rw [show i_size - pos = 0 by omega, lens, dif_pos (Or.inl rfl)]
        simp

/-- C3: a file of size `S > 0` chunked at chunk size `C = 2 ^ c_chunkbits`
yields exactly `ceil(S / C)` chunk records; every record except possibly
the last has declared length `C`, the last has declared length
`S - (ceil(S / C) - 1) * C`, and the inode's index-area size is
`ceil(S / C)` times the index entry unit. (The digest function is
injective, per the spec's collision-free-hash assumption; the table
starts well-formed and the sink is unbounded, so chunking succeeds.) -/
theorem c3_chunk_partition (sha : List Nat → List Nat) (c_chunkbits : Nat)
    (st : BlobState) (inode : erofs_inode) (content : List Nat)
    (hinj : Function.Injective sha)
    (hwf : TableWF sha st.blob_hashmap)
    (hcap : st.cap = none)
    (hbits : c_chunkbits < 32)
    (hsz : 0 < inode.i_size)
    (hcont : inode.i_size ≤ content.length) :
    (erofs_blob_write_chunked_file sha c_chunkbits st inode
        (some content) true).1 = Except.ok () ∧
    ∃ l,
      (erofs_blob_write_chunked_file sha c_chunkbits st inode
          (some content) true).2.2.chunkindexes = some l ∧
      l.length = DIV_ROUND_UP inode.i_size (2 ^ c_chunkbits) ∧
      (∀ i, i + 1 < l.length →
        (l.getD i default).chunksize = 2 ^ c_chunkbits) ∧
      (l.getD (l.length - 1) default).chunksize =
        inode.i_size - (l.length - 1) * 2 ^ c_chunkbits ∧
      (erofs_blob_write_chunked_file sha c_chunkbits st inode
          (some content) true).2.2.extent_isize =
        l.length * unitOf (erofs_blob_write_chunked_file sha c_chunkbits st
          inode (some content) true).2.2.chunkformat := by
  have hcs : 0 < 2 ^ c_chunkbits := pow_pos (by decide) _
  have hcs32 : 2 ^ c_chunkbits < 2 ^ 32 :=
    Nat.pow_lt_pow_right (by decide) hbits
  have hfuel : inode.i_size - 0 ≤
      DIV_ROUND_UP inode.i_size (2 ^ c_chunkbits) * 2 ^ c_chunkbits := by
    unfold DIV_ROUND_UP
    have hdm := Nat.div_add_mod' (inode.i_size + 2 ^ c_chunkbits - 1)
      (2 ^ c_chunkbits)
    have hml := Nat.mod_lt (inode.i_size + 2 ^ c_chunkbits - 1) hcs
    omega
  obtain ⟨chunks, st1, hloop, hmap, hcap1, hwf1⟩ :=
    chunkLoop_ok sha hinj (2 ^ c_chunkbits) content inode.i_size hcs hcs32
      hcont (DIV_ROUND_UP inode.i_size (2 ^ c_chunkbits)) 0 st [] hcap hwf
      (by omega) hfuel
  have hlen : chunks.length =
      DIV_ROUND_UP inode.i_size (2 ^ c_chunkbits) := by
    have hc := congrArg List.length hmap
    rwa [List.length_map, lens_length _ hcs, Nat.sub_zero] at hc
  rw [List.nil_append] at hloop
  have hmap0 : chunks.map (fun c => c.chunksize) = lens (2 ^ c_chunkbits)
      inode.i_size := by
    rwa [Nat.sub_zero] at hmap
  unfold erofs_blob_write_chunked_file
  simp only [Bool.not_true, Bool.false_eq_true, if_false, hloop]
  refine ⟨by trivial, chunks, by trivial, hlen, ?_, ?_, by rw [hlen]⟩
  · intro i hi
    have hgi : i < chunks.length := by omega
    have h1 : (chunks.getD i default).chunksize =
        (chunks.map (fun c => c.chunksize)).getD i 0 := by
      rw [List.getD_eq_getElem _ _ hgi,
        List.getD_eq_getElem _ _ (by simpa using hgi), List.getElem_map]
    rw [h1, hmap0]
    refine lens_getD_full _ hcs _ i ?_
    rw [lens_length _ hcs, ← hlen]
    omega
  · have hpos : 0 < chunks.length := by
      rw [hlen]
      by_contra h0
      push_neg at h0
      have hq : DIV_ROUND_UP inode.i_size (2 ^ c_chunkbits) = 0 := by omega
      rw [hq, Nat.zero_mul] at hfuel
      omega
    have hgi : chunks.length - 1 < chunks.length := by omega
    have h1 : (chunks.getD (chunks.length - 1) default).chunksize =
        (chunks.map (fun c => c.chunksize)).getD (chunks.length - 1) 0 := by
      rw [List.getD_eq_getElem _ _ hgi,
        List.getD_eq_getElem _ _ (by simpa using hgi), List.getElem_map]
    have hlens_len : (lens (2 ^ c_chunkbits) inode.i_size).length =
        chunks.length := by
      rw [lens_length _ hcs, hlen]
    rw [h1, hmap0, ← hlens_len]
    exact lens_getD_last _ hcs _ hsz

/-- Witness for C3 at a concrete input: a 5000-byte file at chunk bits
12 gives two chunks of declared lengths 4096 and 904. -/
theorem c3_chunk_partition_witness :
    (erofs_blob_write_chunked_file (fun l => l) 12 ⟨[], [], none⟩
        ⟨5000, 0, 12, 0, none, 0⟩ (some (List.replicate 5000 3)) true).1 =
      Except.ok () ∧
    ∃ l,
      (erofs_blob_write_chunked_file (fun l => l) 12 ⟨[], [], none⟩
          ⟨5000, 0, 12, 0, none, 0⟩ (some (List.replicate 5000 3))
          true).2.2.chunkindexes = some l ∧
      l.length = DIV_ROUND_UP (⟨5000, 0, 12, 0, none, 0⟩ :
        erofs_inode).i_size (2 ^ 12) ∧
      (∀ i, i + 1 < l.length →
        (l.getD i default).chunksize = 2 ^ 12) ∧
      (l.getD (l.length - 1) default).chunksize =
        (⟨5000, 0, 12, 0, none, 0⟩ : erofs_inode).i_size -
          (l.length - 1) * 2 ^ 12 ∧
      (erofs_blob_write_chunked_file (fun l => l) 12 ⟨[], [], none⟩
          ⟨5000, 0, 12, 0, none, 0⟩ (some (List.replicate 5000 3))
          true).2.2.extent_isize =
        l.length * unitOf (erofs_blob_write_chunked_file (fun l => l) 12
          ⟨[], [], none⟩ ⟨5000, 0, 12, 0, none, 0⟩
          (some (List.replicate 5000 3)) true).2.2.chunkformat :=
  c3_chunk_partition (fun l => l) 12 ⟨[], [], none⟩
    ⟨5000, 0, 12, 0, none, 0⟩ (List.replicate 5000 3)
    (fun a b h => h) (fun c hc => absurd hc (List.not_mem_nil c))
    rfl (by decide) (by decide)
    (by simp only [List.length_replicate]; exact le_rfl)

/-! ## Claim C1: content-addressed deduplication across all chunkings -/

/-- Lookup on a cons whose head has a different digest skips the head. -/
lemma hashmap_get_cons_ne (c : erofs_blobchunk) (m : List erofs_blobchunk)
    (digest : List Nat) (h : c.sha256 ≠ digest) :
    hashmap_get (c :: m) digest = hashmap_get m digest := by
  rw [hashmap_get, if_neg h]

/-- Lookup on a cons whose head has the looked-up digest returns it. -/
lemma hashmap_get_cons_eq (c : erofs_blobchunk) (m : List erofs_blobchunk)
    (digest : List Nat) (h : c.sha256 = digest) :
    hashmap_get (c :: m) digest = some c := by
  rw [hashmap_get, if_pos h]

/-- Invariant carried through any sequence of fully read chunkings on an
unbounded sink, with an injective digest function: the sink stays
unbounded, table entries persist unchanged, every chunking succeeds and
returns exactly the record the final table holds for its digest, and the
staging file grows by the block-rounded sizes of exactly those contents
whose digests were not yet in the table. -/
lemma runChunks_master (sha : List Nat → List Nat)
    (hinj : Function.Injective sha) (datas : List (List Nat)) :
    ∀ st, st.cap = none → (∀ d ∈ datas, d ≠ [] ∧ d.length < 2 ^ 32) →
      (runChunks sha st datas).2.cap = none ∧
      (∀ digest c, hashmap_get st.blob_hashmap digest = some c →
        hashmap_get (runChunks sha st datas).2.blob_hashmap digest = some c) ∧
      (∀ i, i < datas.length →
        ∃ c, hashmap_get (runChunks sha st datas).2.blob_hashmap
            (sha (datas.getD i [])) = some c ∧
          (runChunks sha st datas).1.getD i (Except.error 0) = Except.ok c) ∧
      ((runChunks sha st datas).2.blobfile.length = st.blobfile.length +
        ∑ d in datas.toFinset.filter
          (fun d => hashmap_get st.blob_hashmap (sha d) = none),
          blkround d.length) := by
  induction datas with
  | nil =>
    intro st hcap hok
    refine ⟨hcap, fun digest c h => h, by simp, ?_⟩
    rw [runChunks]
    simp
  | cons d rest ih =>
    intro st hcap hok
    obtain ⟨hdne, hdlen⟩ := hok d (List.mem_cons_self d rest)
    have hdlen0 : d.length ≠ 0 := fun h0 => hdne (List.length_eq_zero.mp h0)
    have hret := rret_full_read d.length hdlen
    have hokr : ∀ e ∈ rest, e ≠ [] ∧ e.length < 2 ^ 32 :=
      fun e he => hok e (List.mem_cons_of_mem d he)
    rw [runChunks]
    simp only []
    match hh : hashmap_get st.blob_hashmap (sha d) with
    | some c0 =>
      rw [getchunk_hit sha st _ d d.length c0 hret hh]
      obtain ⟨ihcap, ihpres, ihres, ihlen⟩ := ih st hcap hokr
      refine ⟨ihcap, ihpres, ?_, ?_⟩
      · intro i hi
        match i with
        | 0 =>
          exact ⟨c0, ihpres (sha d) c0 hh, rfl⟩
        | i + 1 =>
          simp only [List.getD_cons_succ]
          exact ihres i (by simpa using hi)
      · rw [ihlen]
        have hfilter : (d :: rest).toFinset.filter
            (fun e => hashmap_get st.blob_hashmap (sha e) = none) =
            rest.toFinset.filter
              (fun e => hashmap_get st.blob_hashmap (sha e) = none) := by
          rw [List.toFinset_cons, Finset.filter_insert, if_neg (by simp [hh])]
        rw [hfilter]
    | none =>
      rw [getchunk_miss_ok sha st _ d d.length hret hh hcap hdlen0]
      obtain ⟨ihcap, ihpres, ihres, ihlen⟩ :=
        ih ⟨⟨sha d, d.length, erofs_blknr st.blobfile.length⟩ ::
              st.blob_hashmap,
            st.blobfile ++ d ++ List.replicate
              ((EROFS_BLKSIZ - d.length % EROFS_BLKSIZ) % EROFS_BLKSIZ) 0,
            none⟩ rfl hokr
      have hnew_lookup : hashmap_get
          (⟨sha d, d.length, erofs_blknr st.blobfile.length⟩ ::
            st.blob_hashmap) (sha d) =
          some ⟨sha d, d.length, erofs_blknr st.blobfile.length⟩ :=
        hashmap_get_cons_eq _ _ _ rfl
      have hold_lookup : ∀ digest c,
          hashmap_get st.blob_hashmap digest = some c →
          hashmap_get (⟨sha d, d.length, erofs_blknr st.blobfile.length⟩ ::
            st.blob_hashmap) digest = some c := by
        intro digest c h
        have hne2 : (⟨sha d, d.length, erofs_blknr st.blobfile.length⟩ :
            erofs_blobchunk).sha256 ≠ digest := by
          intro hdig
          have hdig2 : sha d = digest := hdig
          rw [← hdig2, hh] at h
          exact Option.noConfusion h
        rw [hashmap_get_cons_ne _ _ _ hne2]
        exact h
      refine ⟨ihcap, ?_, ?_, ?_⟩
      · intro digest c h
        exact ihpres digest c (hold_lookup digest c h)
      · intro i hi
        match i with
        | 0 =>
          exact ⟨⟨sha d, d.length, erofs_blknr st.blobfile.length⟩,
            ihpres _ _ hnew_lookup, rfl⟩
        | i + 1 =>
          simp only [List.getD_cons_succ]
          exact ihres i (by simpa using hi)
      · rw [ihlen]
        simp only [List.length_append, List.length_replicate]
        have hstep_pred : ∀ e, e ≠ d →
            ((hashmap_get (⟨sha d, d.length,
                erofs_blknr st.blobfile.length⟩ :: st.blob_hashmap)
                (sha e) = none) ↔
             (hashmap_get st.blob_hashmap (sha e) = none)) := by
          intro e hed
          rw [hashmap_get_cons_ne _ _ _
            (by
              intro hdig
              have hdig2 : sha d = sha e := hdig
              exact hed (hinj hdig2).symm)]
        have hsets : (d :: rest).toFinset.filter
            (fun e => hashmap_get st.blob_hashmap (sha e) = none) =
            insert d (rest.toFinset.filter
              (fun e => hashmap_get (⟨sha d, d.length,
                erofs_blknr st.blobfile.length⟩ :: st.blob_hashmap)
                (sha e) = none)) := by
          rw [List.toFinset_cons]
          ext e
          simp only [Finset.mem_filter, Finset.mem_insert]
          constructor
          · rintro ⟨he | he, hP⟩
            · exact Or.inl he
            · by_cases hed : e = d
              · exact Or.inl hed
              · exact Or.inr ⟨he, (hstep_pred e hed).mpr hP⟩
          · rintro (rfl | ⟨he, hP1⟩)
            · exact ⟨Or.inl rfl, hh⟩
            · by_cases hed : e = d
              · exact ⟨Or.inl hed, by rw [hed]; exact hh⟩
              · exact ⟨Or.inr he, (hstep_pred e hed).mp hP1⟩
        rw [hsets]
        have hdnot : d ∉ rest.toFinset.filter
            (fun e => hashmap_get (⟨sha d, d.length,
              erofs_blknr st.blobfile.length⟩ :: st.blob_hashmap)
              (sha e) = none) := by
          intro hmem
          have := (Finset.mem_filter.mp hmem).2
          rw [hnew_lookup] at this
          exact Option.noConfusion this
        rw [Finset.sum_insert hdnot]
        unfold blkround
        omega

/-- C1: starting from a fresh store on an unbounded sink, any sequence
of chunkings through `erofs_blob_getchunk` (within one file or across
files) resolves byte-identical contents — which have identical digests,
the digest function being injective per the spec's collision-free-hash
assumption — to the very same `ChunkRecord` (hence the same staged block
address); every chunking succeeds; and the staging store's occupied
length equals the sum, over the distinct chunk contents, of their sizes
rounded up to the block size — not the sum over all occurrences. -/
theorem c1_dedup_unique_staging (sha : List Nat → List Nat)
    (datas : List (List Nat))
    (hinj : Function.Injective sha)
    (hok : ∀ d ∈ datas, d ≠ [] ∧ d.length < 2 ^ 32) :
    (∀ i j, i < datas.length → j < datas.length →
      datas.getD i [] = datas.getD j [] →
      (runChunks sha ⟨[], [], none⟩ datas).1.getD i (Except.error 0) =
        (runChunks sha ⟨[], [], none⟩ datas).1.getD j (Except.error 0)) ∧
    (∀ i, i < datas.length → ∃ c,
      (runChunks sha ⟨[], [], none⟩ datas).1.getD i (Except.error 0) =
        Except.ok c) ∧
    (runChunks sha ⟨[], [], none⟩ datas).2.blobfile.length =
      ∑ d in datas.toFinset, blkround d.length := by
  obtain ⟨hcap, hpres, hres, hlen⟩ :=
    runChunks_master sha hinj datas ⟨[], [], none⟩ rfl hok
  refine ⟨?_, ?_, ?_⟩
  · intro i j hi hj heq
    obtain ⟨ci, hci1, hci2⟩ := hres i hi
    obtain ⟨cj, hcj1, hcj2⟩ := hres j hj
    rw [hci2, hcj2]
    have hcc : some ci = some cj := by
      rw [← hci1, ← hcj1, heq]
    rw [Option.some.inj hcc]
  · intro i hi
    obtain ⟨c, h1, h2⟩ := hres i hi
    exact ⟨c, h2⟩
  · rw [hlen]
    have hall : ∀ d ∈ datas.toFinset,
        hashmap_get (⟨[], [], none⟩ : BlobState).blob_hashmap (sha d) =
          none := fun d hd => rfl
    rw [Finset.filter_true_of_mem hall]
    simp

/-- Witness for C1 at a concrete input: three chunkings, the first two
with identical content; both resolve to the same record and the staging
length counts the shared content once. -/
theorem c1_dedup_unique_staging_witness :
    (∀ i j, i < ([[1], [1], [2, 3]] : List (List Nat)).length →
      j < ([[1], [1], [2, 3]] : List (List Nat)).length →
      ([[1], [1], [2, 3]] : List (List Nat)).getD i [] =
        ([[1], [1], [2, 3]] : List (List Nat)).getD j [] →
      (runChunks (fun l => l) ⟨[], [], none⟩ [[1], [1], [2, 3]]).1.getD i
          (Except.error 0) =
        (runChunks (fun l => l) ⟨[], [], none⟩ [[1], [1], [2, 3]]).1.getD j
          (Except.error 0)) ∧
    (∀ i, i < ([[1], [1], [2, 3]] : List (List Nat)).length → ∃ c,
      (runChunks (fun l => l) ⟨[], [], none⟩ [[1], [1], [2, 3]]).1.getD i
          (Except.error 0) = Except.ok c) ∧
    (runChunks (fun l => l) ⟨[], [], none⟩ [[1], [1], [2, 3]]).2.blobfile.length =
      ∑ d in ([[1], [1], [2, 3]] : List (List Nat)).toFinset,
        blkround d.length :=
  c1_dedup_unique_staging (fun l => l) [[1], [1], [2, 3]]
    (fun a b h => h) (by decide)

end Blobchunk